import Mathlib

set_option autoImplicit false

namespace SimpletonCLI

/-!
# Verification of the Simpleton-CLI cache and LLM-client layer

Shallow embedding of `CacheManager` (TTL cache store with size-pressure
eviction) and `LLMClient` (response cache, error handling, streaming
reassembly, batching), with theorems settling the specification claims.
-/

/-!
## CacheManager — TTL cache store

The JavaScript `Map` is modelled as an association list in insertion
order with unique keys; `Map.get` is `lookupEntry`, `Map.delete` is
`eraseEntry` (keys are unique, so removing every binding with the key is
the same as removing the single one), `Map.set` is `mapSet` (updates an
existing key in place, appends a fresh key at the end — JS `Map`
iteration-order semantics).  Timestamps are `Nat` milliseconds; the
implicit `Date.now()` is passed explicitly as `now`.
-/

/-- One cache entry: `{ data, timestamp, ttl, size }` (`CacheEntry<T>`). -/
structure CacheEntry (V : Type) where
  data : V
  timestamp : Nat
  ttl : Nat
  size : Nat
  deriving DecidableEq

/-- The mutable state of a `CacheManager`: the `Map`, the hit/miss
counters, and the configuration (`maxSize`, `defaultTTL`). -/
structure CMState (V : Type) where
  cache : List (String × CacheEntry V)
  hits : Nat
  misses : Nat
  maxSize : Nat
  defaultTTL : Nat
  deriving DecidableEq

variable {V : Type}

/-- `isExpired(entry, now)`: `(entry.timestamp + entry.ttl) < now`. -/
def isExpired (e : CacheEntry V) (now : Nat) : Bool :=
  decide (e.timestamp + e.ttl < now)

/-- `Map.get`: the entry stored under `k`, if any. -/
def lookupEntry {B : Type} (cache : List (String × B)) (k : String) :
    Option B :=
  (cache.find? (fun p => p.1 == k)).map (fun p => p.2)

/-- `Map.delete k` (keys are unique, so a filter is equivalent). -/
def eraseEntry {B : Type} (cache : List (String × B)) (k : String) :
    List (String × B) :=
  cache.filter (fun p => p.1 != k)

/-- `Map.set k e`: replace in place if present, else append (JS `Map`
insertion-order semantics). -/
def mapSet {B : Type} (cache : List (String × B)) (k : String)
    (e : B) : List (String × B) :=
  match cache with
  | [] => [(k, e)]
  | p :: rest => if p.1 == k then (k, e) :: rest else p :: mapSet rest k e

/-- `CacheManager.get(key)` at time `now`: returns the value (or `none`)
together with the updated state.  An expired entry is deleted and counted
as a miss. -/
def cmGet (st : CMState V) (key : String) (now : Nat) :
    Option V × CMState V :=
  match lookupEntry st.cache key with
  | none => (none, { st with misses := st.misses + 1 })
  | some e =>
    if isExpired e now then
      (none, { st with cache := eraseEntry st.cache key,
                       misses := st.misses + 1 })
    else
      (some e.data, { st with hits := st.hits + 1 })

@[simp] theorem lookupEntry_nil {B : Type} (k : String) :
    lookupEntry ([] : List (String × B)) k = none := rfl

theorem lookupEntry_erase {B : Type} (cache : List (String × B))
    (k : String) : lookupEntry (eraseEntry cache k) k = none := by
  induction cache with
  | nil => rfl
  | cons p rest ih =>
    by_cases h : p.1 == k
    · simpa [eraseEntry, List.filter_cons, bne, h] using ih
    · simp [eraseEntry, List.filter_cons, bne, h, lookupEntry,
        List.find?_cons, ih]

/-- C3 (amended): an entry is absent, and is removed as a side effect of
the `get` call, as soon as `now` is *strictly* greater than
`timestamp + ttl` (the code tests `(entry.timestamp + entry.ttl) < now`). -/
theorem cmGet_expired_miss_and_removes (st : CMState V) (key : String)
    (now : Nat) (e : CacheEntry V)
    (hfound : lookupEntry st.cache key = some e)
    (hexp : e.timestamp + e.ttl < now) :
    (cmGet st key now).1 = none ∧
      lookupEntry (cmGet st key now).2.cache key = none := by
  simp only [cmGet, hfound]
  simp [isExpired, hexp, lookupEntry_erase]

/-- Witness for `cmGet_expired_miss_and_removes` at a concrete state. -/
theorem cmGet_expired_miss_and_removes_witness :
    (cmGet ⟨[("k", ⟨"v", 0, 5, 1⟩)], 0, 0, 100, 10⟩ "k" 6).1 = none ∧
      lookupEntry (cmGet (⟨[("k", ⟨"v", 0, 5, 1⟩)], 0, 0, 100, 10⟩ :
        CMState String) "k" 6).2.cache "k" = none :=
  cmGet_expired_miss_and_removes
    ⟨[("k", ⟨"v", 0, 5, 1⟩)], 0, 0, 100, 10⟩ "k" 6 ⟨"v", 0, 5, 1⟩
    (by decide) (by decide)

/-- C3 counterexample: at `now = timestamp + ttl` (here `5 = 0 + 5`, so
`now ≥ createdAt + ttl` holds) the code still returns the cached value —
the claim's `now >= createdAt + ttl ⇒ absent` is false at the boundary. -/
theorem cmGet_at_exact_ttl_returns_value :
    (5 : Nat) ≥ 0 + 5 ∧
      (cmGet ⟨[("k", ⟨"v", 0, 5, 1⟩)], 0, 0, 100, 10⟩ "k" 5).1 = some "v" :=
  by decide

/-!
### Size-pressure eviction (`ensureSpace`, `set`)
-/

/-- Total estimated size: the sum of `entry.size` over all entries
(`reduce((sum, entry) => sum + entry.size, 0)`). -/
def totalSize (cache : List (String × CacheEntry V)) : Nat :=
  (cache.map (fun p => p.2.size)).sum

/-- Stable insertion in ascending `timestamp` order: the element goes
after every element with a strictly smaller timestamp and before the
first with a greater-or-equal one.  Folded over the list this reproduces
the (unique) result of the ES2019-stable
`sort((a, b) => a.timestamp - b.timestamp)`. -/
def insertTs (p : String × CacheEntry V) :
    List (String × CacheEntry V) → List (String × CacheEntry V)
  | [] => [p]
  | q :: rest =>
    if q.2.timestamp < p.2.timestamp then q :: insertTs p rest
    else p :: q :: rest

/-- `Array.from(this.cache.entries()).sort((a, b) => a.timestamp - b.timestamp)`:
the snapshot of the map in insertion order, stably sorted by `timestamp`. -/
def sortByTimestamp (l : List (String × CacheEntry V)) :
    List (String × CacheEntry V) :=
  l.foldr insertTs []

/-- The eviction loop of `ensureSpace`: walk the timestamp-sorted
snapshot, deleting each entry from the map and decrementing the running
size, stopping as soon as the new entry fits. -/
def evictLoop (newSize maxSize : Nat) :
    List (String × CacheEntry V) → List (String × CacheEntry V) → Nat →
      List (String × CacheEntry V)
  | [], cache, _ => cache
  | (k, e) :: rest, cache, cur =>
    let cache' := eraseEntry cache k
    let cur' := cur - e.size
    if cur' + newSize ≤ maxSize then cache'
    else evictLoop newSize maxSize rest cache' cur'

/-- `ensureSpace(newEntrySize)`: no-op when the new entry already fits,
otherwise run the eviction loop over the sorted snapshot. -/
def ensureSpace (cache : List (String × CacheEntry V))
    (maxSize newSize : Nat) : List (String × CacheEntry V) :=
  let currentSize := totalSize cache
  if currentSize + newSize ≤ maxSize then cache
  else evictLoop newSize maxSize (sortByTimestamp cache) cache currentSize

/-- `ttl || this.defaultTTL`: an absent ttl — or an explicit `0`, which
is falsy in JS — falls back to the default. -/
def resolveTTL (defaultTTL : Nat) (ttlOpt : Option Nat) : Nat :=
  match ttlOpt with
  | some t => if t = 0 then defaultTTL else t
  | none => defaultTTL

/-- `CacheManager.set(key, data, ttl?)` at time `now`.  `estimateSize`
(the UTF-8 byte length of `JSON.stringify(data)`) is abstracted into the
explicit argument `size`. -/
def cmSet (st : CMState V) (key : String) (data : V) (ttlOpt : Option Nat)
    (now : Nat) (size : Nat) : CMState V :=
  let entry : CacheEntry V := ⟨data, now, resolveTTL st.defaultTTL ttlOpt, size⟩
  { st with cache := mapSet (ensureSpace st.cache st.maxSize size) key entry }

/-- Specification helper: how many entries of the sorted snapshot the
eviction loop removes before it stops. -/
def evictCount : List (String × CacheEntry V) → Nat → Nat → Nat → Nat
  | [], _, _, _ => 0
  | (_, e) :: rest, cur, newSize, maxSize =>
    let cur' := cur - e.size
    if cur' + newSize ≤ maxSize then 1
    else 1 + evictCount rest cur' newSize maxSize

/-- Specification helper: drop from the map every entry whose key occurs
in `ks`, keeping the remainder in insertion order. -/
def removeKeys (cache : List (String × CacheEntry V)) (ks : List String) :
    List (String × CacheEntry V) :=
  cache.filter (fun p => !(ks.contains p.1))

/-- Ascending-creation-time order on entries. -/
def tsLE (a b : String × CacheEntry V) : Prop :=
  a.2.timestamp ≤ b.2.timestamp

theorem insertTs_perm (p : String × CacheEntry V)
    (l : List (String × CacheEntry V)) : List.Perm (insertTs p l) (p :: l) := by
  induction l with
  | nil => exact List.Perm.refl _
  | cons q rest ih =>
    by_cases h : q.2.timestamp < p.2.timestamp
    · simp only [insertTs, if_pos h]
      exact (ih.cons q).trans (List.Perm.swap p q rest)
    · simp only [insertTs, if_neg h]
      exact List.Perm.refl _

theorem sortByTimestamp_perm (l : List (String × CacheEntry V)) :
    List.Perm (sortByTimestamp l) l := by
  induction l with
  | nil => exact List.Perm.refl _
  | cons q rest ih => exact (insertTs_perm q _).trans (ih.cons q)

theorem pairwise_insertTs (p : String × CacheEntry V)
    (l : List (String × CacheEntry V)) (h : l.Pairwise tsLE) :
    (insertTs p l).Pairwise tsLE := by
  induction l with
  | nil => simp [insertTs, List.pairwise_singleton]
  | cons q rest ih =>
    rcases List.pairwise_cons.mp h with ⟨hq, hrest⟩
    by_cases hlt : q.2.timestamp < p.2.timestamp
    · simp only [insertTs, if_pos hlt]
      refine List.pairwise_cons.mpr ⟨?_, ih hrest⟩
      intro x hx
      rcases List.mem_cons.mp ((insertTs_perm p rest).mem_iff.mp hx) with rfl | hxr
      · exact le_of_lt hlt
      · exact hq x hxr
    · simp only [insertTs, if_neg hlt]
      refine List.pairwise_cons.mpr ⟨?_, h⟩
      intro x hx
      have hpq : tsLE p q := Nat.le_of_not_lt hlt
      rcases List.mem_cons.mp hx with hxq | hxr
      · exact hxq ▸ hpq
      · exact le_trans hpq (hq x hxr)

theorem sortByTimestamp_sorted (l : List (String × CacheEntry V)) :
    (sortByTimestamp l).Pairwise tsLE := by
  induction l with
  | nil => exact List.Pairwise.nil
  | cons q rest ih => exact pairwise_insertTs q _ ih

theorem filter_insertTs (t : Nat) (p : String × CacheEntry V)
    (l : List (String × CacheEntry V)) :
    (insertTs p l).filter (fun q => q.2.timestamp == t) =
      if p.2.timestamp = t
      then p :: l.filter (fun q => q.2.timestamp == t)
      else l.filter (fun q => q.2.timestamp == t) := by
  induction l with
  | nil => by_cases hpt : p.2.timestamp = t <;> simp [insertTs, hpt]
  | cons q rest ih =>
    by_cases hlt : q.2.timestamp < p.2.timestamp
    · simp only [insertTs, if_pos hlt, List.filter_cons]
      by_cases hpt : p.2.timestamp = t
      · have hqt : ¬ q.2.timestamp = t := by omega
        simp [hpt, hqt, ih]
      · by_cases hqt : q.2.timestamp = t <;> simp [hpt, hqt, ih]
    · simp only [insertTs, if_neg hlt, List.filter_cons]
      by_cases hpt : p.2.timestamp = t <;> simp [hpt]

/-- Stability of the modelled sort: for every creation time `t`, the
entries carrying `t` appear in the sorted snapshot in exactly their
original (insertion) order. -/
theorem sortByTimestamp_stable (l : List (String × CacheEntry V)) (t : Nat) :
    (sortByTimestamp l).filter (fun q => q.2.timestamp == t) =
      l.filter (fun q => q.2.timestamp == t) := by
  induction l with
  | nil => rfl
  | cons q rest ih =>
    by_cases hqt : q.2.timestamp = t
    · simp [sortByTimestamp, List.foldr_cons, filter_insertTs, hqt,
        List.filter_cons] at ih ⊢
      simpa [sortByTimestamp] using ih
    · simp [sortByTimestamp, List.foldr_cons, filter_insertTs, hqt,
        List.filter_cons] at ih ⊢
      simpa [sortByTimestamp] using ih

@[simp] theorem removeKeys_nil_keys (cache : List (String × CacheEntry V)) :
    removeKeys cache [] = cache := by
  simp [removeKeys]

theorem removeKeys_erase (cache : List (String × CacheEntry V))
    (k : String) (ks : List String) :
    removeKeys (eraseEntry cache k) ks = removeKeys cache (k :: ks) := by
  induction cache with
  | nil => rfl
  | cons p rest ih =>
    by_cases hk : p.1 = k
    · simpa [removeKeys, eraseEntry, List.filter_cons, hk,
        List.contains_cons] using ih
    · by_cases hm : p.1 ∈ ks <;>
        simpa [removeKeys, eraseEntry, List.filter_cons, hk, hm,
          List.contains_cons] using ih

theorem eraseEntry_eq_removeKeys (cache : List (String × CacheEntry V))
    (k : String) : eraseEntry cache k = removeKeys cache [k] := by
  induction cache with
  | nil => rfl
  | cons p rest ih =>
    by_cases hk : p.1 = k <;>
      simpa [removeKeys, eraseEntry, List.filter_cons, hk,
        List.contains_cons] using ih

/-- The eviction loop removes from the map exactly the keys of the first
`evictCount` entries of the sorted snapshot, leaving the remainder in
insertion order. -/
theorem evictLoop_eq_removeKeys (newSize maxSize : Nat)
    (sorted : List (String × CacheEntry V)) :
    ∀ (cache : List (String × CacheEntry V)) (cur : Nat),
      evictLoop newSize maxSize sorted cache cur =
        removeKeys cache
          ((sorted.take (evictCount sorted cur newSize maxSize)).map
            Prod.fst) := by
  induction sorted with
  | nil => intro cache cur; simp [evictLoop, evictCount]
  | cons pe rest ih =>
    obtain ⟨k, e⟩ := pe
    intro cache cur
    simp only [evictLoop, evictCount]
    by_cases hc : cur - e.size + newSize ≤ maxSize
    · simp only [if_pos hc, List.take_succ_cons, List.take_zero,
        List.map_cons, List.map_nil]
      exact eraseEntry_eq_removeKeys cache k
    · simp only [if_neg hc]
      rw [ih]
      have h1 : 1 + evictCount rest (cur - e.size) newSize maxSize =
          evictCount rest (cur - e.size) newSize maxSize + 1 := Nat.add_comm _ _
      rw [h1, List.take_succ_cons, List.map_cons, removeKeys_erase]

theorem evictCount_le_length (sorted : List (String × CacheEntry V)) :
    ∀ cur newSize maxSize,
      evictCount sorted cur newSize maxSize ≤ sorted.length := by
  induction sorted with
  | nil => intro cur newSize maxSize; simp [evictCount]
  | cons pe rest ih =>
    obtain ⟨k, e⟩ := pe
    intro cur newSize maxSize
    simp only [evictCount, List.length_cons]
    by_cases hc : cur - e.size + newSize ≤ maxSize
    · simp [if_pos hc]
    · rw [if_neg hc, Nat.add_comm 1]
      exact Nat.add_le_add_right (ih _ _ _) 1

/-- When the loop stops it has either made room or exhausted the list. -/
theorem evictCount_final (sorted : List (String × CacheEntry V)) :
    ∀ cur newSize maxSize,
      cur - totalSize (sorted.take (evictCount sorted cur newSize maxSize)) +
          newSize ≤ maxSize ∨
        evictCount sorted cur newSize maxSize = sorted.length := by
  induction sorted with
  | nil => intro cur newSize maxSize; right; simp [evictCount]
  | cons pe rest ih =>
    obtain ⟨k, e⟩ := pe
    intro cur newSize maxSize
    simp only [evictCount, List.length_cons]
    by_cases hc : cur - e.size + newSize ≤ maxSize
    · left
      simpa [if_pos hc, totalSize] using hc
    · rw [if_neg hc, Nat.add_comm 1]
      rcases ih (cur - e.size) newSize maxSize with h | h

      · left
        rw [List.take_succ_cons]
        simpa [totalSize, Nat.sub_sub] using h
      · right
        rw [h]


/-- The loop never stops early: before the stopping point, the running
size still does not leave room for the new entry. -/
theorem evictCount_minimal (sorted : List (String × CacheEntry V)) :
    ∀ cur newSize maxSize j, 1 ≤ j →
      j < evictCount sorted cur newSize maxSize →
      ¬ (cur - totalSize (sorted.take j) + newSize ≤ maxSize) := by
  induction sorted with
  | nil => intro cur newSize maxSize j h1 h2; simp [evictCount] at h2
  | cons pe rest ih =>
    obtain ⟨k, e⟩ := pe
    intro cur newSize maxSize j h1 h2
    simp only [evictCount] at h2
    by_cases hc : cur - e.size + newSize ≤ maxSize
    · rw [if_pos hc] at h2; omega
    · rw [if_neg hc] at h2
      rcases Nat.exists_eq_add_of_le h1 with ⟨j', rfl⟩
      rw [Nat.add_comm 1 j'] at h2 ⊢
      rcases Nat.eq_zero_or_pos j' with rfl | hj'
      · simpa [totalSize] using hc
      · have := ih (cur - e.size) newSize maxSize j' hj' (by omega)
        rw [List.take_succ_cons]
        simpa [totalSize, Nat.sub_sub] using this

theorem totalSize_perm {a b : List (String × CacheEntry V)}
    (h : List.Perm a b) : totalSize a = totalSize b := by
  have := (h.map (fun p => p.2.size)).sum_eq
  simpa [totalSize] using this

theorem totalSize_append (a b : List (String × CacheEntry V)) :
    totalSize (a ++ b) = totalSize a + totalSize b := by
  simp [totalSize]

/-- Under unique keys, filtering a list down to the keys of its own
`n`-prefix yields exactly that prefix. -/
theorem filter_contains_take (l : List (String × CacheEntry V)) (n : Nat)
    (hnd : (l.map Prod.fst).Nodup) :
    l.filter (fun p => ((l.take n).map Prod.fst).contains p.1) =
      l.take n := by
  have hmap : l.map Prod.fst =
      (l.take n).map Prod.fst ++ (l.drop n).map Prod.fst := by
    rw [← List.map_append, List.take_append_drop]
  rw [hmap] at hnd
  rcases List.nodup_append.mp hnd with ⟨-, -, hdisj⟩
  set ks := (l.take n).map Prod.fst with hks
  have h1 : (l.take n).filter (fun p => ks.contains p.1) = l.take n := by
    apply List.filter_eq_self.mpr
    intro p hp
    simpa [hks] using List.mem_map_of_mem Prod.fst hp
  have h2 : (l.drop n).filter (fun p => ks.contains p.1) = [] := by
    apply List.filter_eq_nil_iff.mpr
    intro p hp
    intro hmem
    have hpm : p.1 ∈ ks := by simpa using hmem
    exact hdisj (hks ▸ hpm) (List.mem_map_of_mem Prod.fst hp)
  calc l.filter (fun p => ks.contains p.1)
      = (l.take n ++ l.drop n).filter (fun p => ks.contains p.1) := by
        rw [List.take_append_drop]
    _ = l.take n := by rw [List.filter_append, h1, h2, List.append_nil]

/-- Removing the keys of the `n`-prefix of the sorted snapshot removes
exactly `totalSize (take n)` bytes. -/
theorem totalSize_removeKeys_take (cache : List (String × CacheEntry V))
    (n : Nat) (hnd : (cache.map Prod.fst).Nodup) :
    totalSize (removeKeys cache
        (((sortByTimestamp cache).take n).map Prod.fst)) =
      totalSize cache - totalSize ((sortByTimestamp cache).take n) := by
  set sorted := sortByTimestamp cache with hs
  set P : String × CacheEntry V → Bool :=
    fun p => ((sorted.take n).map Prod.fst).contains p.1 with hP
  have hperm : List.Perm sorted cache := sortByTimestamp_perm cache
  have hndS : (sorted.map Prod.fst).Nodup :=
    ((hperm.map Prod.fst).nodup_iff).mpr hnd
  have hsplit : totalSize (cache.filter P) + totalSize (removeKeys cache
      ((sorted.take n).map Prod.fst)) = totalSize cache := by
    rw [removeKeys, ← totalSize_append]
    exact totalSize_perm (List.filter_append_perm P cache)
  have hfilter : totalSize (cache.filter P) = totalSize (sorted.take n) := by
    have h1 : List.Perm (sorted.filter P) (cache.filter P) := hperm.filter P
    have h2 : sorted.filter P = sorted.take n := filter_contains_take sorted n hndS
    rw [← totalSize_perm h1, h2]
  omega

/-- After `ensureSpace` either the new entry fits or the store is empty. -/
theorem ensureSpace_total_or_empty (cache : List (String × CacheEntry V))
    (maxSize newSize : Nat) (hnd : (cache.map Prod.fst).Nodup) :
    totalSize (ensureSpace cache maxSize newSize) + newSize ≤ maxSize ∨
      ensureSpace cache maxSize newSize = [] := by
  by_cases hfit : totalSize cache + newSize ≤ maxSize
  · left
    simpa [ensureSpace, if_pos hfit] using hfit
  · rw [ensureSpace]
    simp only [if_neg hfit]
    rw [evictLoop_eq_removeKeys]
    rcases evictCount_final (sortByTimestamp cache) (totalSize cache)
        newSize maxSize with h | h
    · left
      rw [totalSize_removeKeys_take cache _ hnd]
      exact h
    · right
      rw [h, List.take_length]
      apply List.filter_eq_nil_iff.mpr
      intro p hp hb
      have hpm : p.1 ∈ (sortByTimestamp cache).map Prod.fst :=
        ((sortByTimestamp_perm cache).map Prod.fst).mem_iff.mpr
          (List.mem_map_of_mem Prod.fst hp)
      simp [List.elem_eq_mem, hpm] at hb

theorem mapSet_totalSize_le (c : List (String × CacheEntry V)) (k : String)
    (e : CacheEntry V) : totalSize (mapSet c k e) ≤ totalSize c + e.size := by
  induction c with
  | nil => simp [mapSet, totalSize]
  | cons p rest ih =>
    by_cases hk : p.1 == k
    · simp only [mapSet, if_pos hk]
      simp [totalSize] at ih ⊢
      omega
    · simp only [mapSet, if_neg hk]
      simp [totalSize] at ih ⊢
      omega

/-- C8: when `set` triggers eviction (the new entry does not fit into
`maxSize`), `ensureSpace` removes exactly the first `evictCount` entries
of the timestamp-sorted snapshot of the map: smallest `createdAt` first
(the snapshot is `Pairwise tsLE`), ties in insertion order (the sort is
stable: per-timestamp subsequences are preserved), never stopping while
the new entry still does not fit, and stopping as soon as space is
available — or after removing everything, so that only the new entry
remains after the subsequent insert. -/
theorem ensureSpace_evicts_oldest_first
    (cache : List (String × CacheEntry V)) (maxSize newSize : Nat)
    (hnd : (cache.map Prod.fst).Nodup)
    (htrig : ¬ (totalSize cache + newSize ≤ maxSize)) :
    (sortByTimestamp cache).Pairwise tsLE ∧
    (∀ t, (sortByTimestamp cache).filter (fun q => q.2.timestamp == t) =
      cache.filter (fun q => q.2.timestamp == t)) ∧
    ensureSpace cache maxSize newSize =
      removeKeys cache
        (((sortByTimestamp cache).take
          (evictCount (sortByTimestamp cache) (totalSize cache) newSize
            maxSize)).map Prod.fst) ∧
    (∀ j, j < evictCount (sortByTimestamp cache) (totalSize cache) newSize
        maxSize →
      ¬ (totalSize cache - totalSize ((sortByTimestamp cache).take j) +
          newSize ≤ maxSize)) ∧
    (totalSize (ensureSpace cache maxSize newSize) + newSize ≤ maxSize ∨
      ensureSpace cache maxSize newSize = []) := by
  refine ⟨sortByTimestamp_sorted cache, sortByTimestamp_stable cache, ?_, ?_,
    ensureSpace_total_or_empty cache maxSize newSize hnd⟩
  · rw [ensureSpace]
    simp only [if_neg htrig]
    exact evictLoop_eq_removeKeys _ _ _ _ _
  · intro j hj
    rcases Nat.eq_zero_or_pos j with rfl | hj1
    · simpa [totalSize] using htrig
    · exact evictCount_minimal (sortByTimestamp cache) (totalSize cache)
        newSize maxSize j hj1 hj

/-- Witness for `ensureSpace_evicts_oldest_first`: two entries of size 4
(timestamps 5 and 3), capacity 10, incoming size 6 — the older entry
`"b"` is evicted and the newer `"a"` survives. -/
theorem ensureSpace_evicts_oldest_first_witness :
    ensureSpace [("a", (⟨"x", 5, 1, 4⟩ : CacheEntry String)),
        ("b", ⟨"y", 3, 1, 4⟩)] 10 6 =
      removeKeys [("a", (⟨"x", 5, 1, 4⟩ : CacheEntry String)),
          ("b", ⟨"y", 3, 1, 4⟩)]
        (((sortByTimestamp [("a", (⟨"x", 5, 1, 4⟩ : CacheEntry String)),
            ("b", ⟨"y", 3, 1, 4⟩)]).take
          (evictCount
            (sortByTimestamp [("a", (⟨"x", 5, 1, 4⟩ : CacheEntry String)),
              ("b", ⟨"y", 3, 1, 4⟩)])
            (totalSize [("a", (⟨"x", 5, 1, 4⟩ : CacheEntry String)),
              ("b", ⟨"y", 3, 1, 4⟩)]) 6 10)).map Prod.fst) :=
  (ensureSpace_evicts_oldest_first
    [("a", (⟨"x", 5, 1, 4⟩ : CacheEntry String)), ("b", ⟨"y", 3, 1, 4⟩)]
    10 6 (by decide) (by decide)).2.2.1

/-- C4 (amended): after any `set` call returns, the total estimated size
is at most `maxSize`, or the store consists of exactly the single entry
just set.  (The code evicts *every* existing entry to admit an oversized
one, even when the store was non-empty before the call, so the exception
is "only the new entry remains", not "the store was empty before".) -/
theorem cmSet_size_bound (st : CMState V) (key : String) (data : V)
    (ttlOpt : Option Nat) (now size : Nat)
    (hnd : (st.cache.map Prod.fst).Nodup) :
    totalSize (cmSet st key data ttlOpt now size).cache ≤ st.maxSize ∨
      (cmSet st key data ttlOpt now size).cache =
        [(key, ⟨data, now, resolveTTL st.defaultTTL ttlOpt, size⟩)] := by
  rcases ensureSpace_total_or_empty st.cache st.maxSize size hnd with h | h
  · left
    have hm := mapSet_totalSize_le (ensureSpace st.cache st.maxSize size)
      key ⟨data, now, resolveTTL st.defaultTTL ttlOpt, size⟩
    have hd : (⟨data, now, resolveTTL st.defaultTTL ttlOpt, size⟩ :
        CacheEntry V).size = size := rfl
    rw [hd] at hm
    simp only [cmSet]
    omega
  · right
    simp [cmSet, h, mapSet]

/-- Witness for `cmSet_size_bound` on a store where the new entry fits. -/
theorem cmSet_size_bound_witness :
    totalSize (cmSet (⟨[("a", ⟨"x", 0, 10, 3⟩)], 0, 0, 10, 10⟩ : CMState String)
        "b" "y" none 1 4).cache ≤ 10 ∨
      (cmSet (⟨[("a", ⟨"x", 0, 10, 3⟩)], 0, 0, 10, 10⟩ : CMState String)
          "b" "y" none 1 4).cache =
        [("b", ⟨"y", 1, resolveTTL 10 none, 4⟩)] :=
  cmSet_size_bound ⟨[("a", ⟨"x", 0, 10, 3⟩)], 0, 0, 10, 10⟩ "b" "y" none 1 4
    (by decide)

/-- C4 counterexample: a store holding one entry (size 5, `maxSize` 10)
admits an oversized entry (size 20) after evicting everything, so the
total size after `set` exceeds `maxSize` although the store was
non-empty before that `set` — the claim's "except when the store held
zero entries" exception is wrong. -/
theorem cmSet_oversized_nonempty_violates_bound :
    ((⟨[("a", ⟨"x", 0, 10, 5⟩)], 0, 0, 10, 10⟩ : CMState String).cache ≠ [] ∧
      (⟨[("a", ⟨"x", 0, 10, 5⟩)], 0, 0, 10, 10⟩ : CMState String).maxSize = 10) ∧
    10 < totalSize (cmSet
      (⟨[("a", ⟨"x", 0, 10, 5⟩)], 0, 0, 10, 10⟩ : CMState String)
      "b" "y" none 1 20).cache := by
  decide

/-!
### File-content caching with stat-based invalidation
-/

/-- The record cached by `cacheFileContent`:
`{ content, mtime: fileStat.mtime.getTime(), size: fileStat.size }`. -/
structure FileRecord where
  content : String
  mtime : Nat
  size : Nat
  deriving DecidableEq

/-- `CacheManager.getCachedFileContent(filePath)` at time `now`.
`generateKey` (an md5 digest of the joined parts) is abstracted as the
argument `keyFn`; the `fs.stat` result is passed as
`statRes : Option (mtime × size)`, with `none` standing for the rejected
promise when the file no longer exists. -/
def getCachedFileContent (keyFn : List String → String)
    (st : CMState FileRecord) (filePath : String) (now : Nat)
    (statRes : Option (Nat × Nat)) : Option String × CMState FileRecord :=
  let key := keyFn ["file-content", filePath]
  match cmGet st key now with
  | (none, st1) => (none, st1)
  | (some cached, st1) =>
    match statRes with
    | none => (none, { st1 with cache := eraseEntry st1.cache key })
    | some (m, s) =>
      if m ≠ cached.mtime ∨ s ≠ cached.size then
        (none, { st1 with cache := eraseEntry st1.cache key })
      else
        (some cached.content, st1)

/-- C7: a read through `getCachedFileContent` misses and purges the
record whenever the live stat disagrees with the cached `(mtime, size)`
checkpoint or the file is gone, and returns the cached content only when
both match exactly. -/
theorem getCachedFileContent_spec (keyFn : List String → String)
    (st : CMState FileRecord) (filePath : String) (now : Nat)
    (statRes : Option (Nat × Nat)) :
    (statRes = none →
      (getCachedFileContent keyFn st filePath now statRes).1 = none ∧
      lookupEntry
        (getCachedFileContent keyFn st filePath now statRes).2.cache
        (keyFn ["file-content", filePath]) = none) ∧
    (∀ m s e, statRes = some (m, s) →
      lookupEntry st.cache (keyFn ["file-content", filePath]) = some e →
      (m ≠ e.data.mtime ∨ s ≠ e.data.size) →
      (getCachedFileContent keyFn st filePath now statRes).1 = none ∧
      lookupEntry
        (getCachedFileContent keyFn st filePath now statRes).2.cache
        (keyFn ["file-content", filePath]) = none) ∧
    (∀ c, (getCachedFileContent keyFn st filePath now statRes).1 = some c →
      ∃ e, lookupEntry st.cache (keyFn ["file-content", filePath]) = some e ∧
        statRes = some (e.data.mtime, e.data.size) ∧
        c = e.data.content) := by
  set key := keyFn ["file-content", filePath] with hkey
  rcases hlk : lookupEntry st.cache key with _ | e
  · have hres : getCachedFileContent keyFn st filePath now statRes =
        (none, { st with misses := st.misses + 1 }) := by
      simp [getCachedFileContent, cmGet, ← hkey, hlk]
    refine ⟨fun _ => ?_, fun m s e hms hsome => ?_, fun c hc => ?_⟩
    · rw [hres]
      exact ⟨rfl, hlk⟩
    · exact absurd hsome (by simp)
    · rw [hres] at hc
      exact absurd hc (by simp)
  · by_cases hexp : isExpired e now
    · have hres : getCachedFileContent keyFn st filePath now statRes =
          (none, { st with cache := eraseEntry st.cache key,
                           misses := st.misses + 1 }) := by
        simp [getCachedFileContent, cmGet, ← hkey, hlk, hexp]
      refine ⟨fun _ => ?_, fun m s e' hms hsome hne => ?_, fun c hc => ?_⟩
      · rw [hres]
        exact ⟨rfl, lookupEntry_erase st.cache key⟩
      · rw [hres]
        exact ⟨rfl, lookupEntry_erase st.cache key⟩
      · rw [hres] at hc
        exact absurd hc (by simp)
    · rcases statRes with _ | ⟨m, s⟩
      · have hres : getCachedFileContent keyFn st filePath now none =
            (none, { st with cache := eraseEntry st.cache key,
                             hits := st.hits + 1 }) := by
          simp [getCachedFileContent, cmGet, ← hkey, hlk, hexp]
        refine ⟨fun _ => ?_, fun m s e' hms hsome hne => ?_, fun c hc => ?_⟩
        · rw [hres]
          exact ⟨rfl, lookupEntry_erase st.cache key⟩
        · exact absurd hms (by simp)
        · rw [hres] at hc
          exact absurd hc (by simp)
      · by_cases hmis : m ≠ e.data.mtime ∨ s ≠ e.data.size
        · have hres : getCachedFileContent keyFn st filePath now
              (some (m, s)) =
              (none, { st with cache := eraseEntry st.cache key,
                               hits := st.hits + 1 }) := by
            simp [getCachedFileContent, cmGet, ← hkey, hlk, hexp, hmis]
          refine ⟨fun habs => ?_, fun m' s' e' hms hsome hne => ?_,
            fun c hc => ?_⟩
          · exact absurd habs (by simp)
          · rw [hres]
            exact ⟨rfl, lookupEntry_erase st.cache key⟩
          · rw [hres] at hc
            exact absurd hc (by simp)
        · have hres : getCachedFileContent keyFn st filePath now
              (some (m, s)) =
              (some e.data.content, { st with hits := st.hits + 1 }) := by
            simp [getCachedFileContent, cmGet, ← hkey, hlk, hexp, hmis]
          push_neg at hmis
          obtain ⟨hm, hs⟩ := hmis
          refine ⟨fun habs => ?_, fun m' s' e' hms hsome hne => ?_,
            fun c hc => ?_⟩
          · exact absurd habs (by simp)
          · injection hsome with he'
            subst he'
            injection hms with hpair
            rcases Prod.mk.injEq .. ▸ hpair with ⟨rfl, rfl⟩
            rcases hne with h | h
            · exact absurd hm h
            · exact absurd hs h
          · rw [hres] at hc
            injection hc with hc1
            exact ⟨e, rfl, by rw [hm, hs], hc1.symm⟩

/-- Witness for `getCachedFileContent_spec`: a cached record with
checkpoint `(mtime 1, size 3)` against a live stat of `(2, 3)` — the
read misses and the record is purged. -/
theorem getCachedFileContent_spec_witness :
    (getCachedFileContent (fun _ => "K")
      ⟨[("K", ⟨⟨"body", 1, 3⟩, 0, 100, 1⟩)], 0, 0, 100, 10⟩ "f.txt" 5
      (some (2, 3))).1 = none ∧
    lookupEntry (getCachedFileContent (fun _ => "K")
      ⟨[("K", ⟨⟨"body", 1, 3⟩, 0, 100, 1⟩)], 0, 0, 100, 10⟩ "f.txt" 5
      (some (2, 3))).2.cache ((fun (_ : List String) => "K")
        ["file-content", "f.txt"]) = none :=
  (getCachedFileContent_spec (fun _ => "K")
    ⟨[("K", ⟨⟨"body", 1, 3⟩, 0, 100, 1⟩)], 0, 0, 100, 10⟩ "f.txt" 5
    (some (2, 3))).2.1 2 3 ⟨⟨"body", 1, 3⟩, 0, 100, 1⟩ rfl (by decide)
    (by decide)

/-!
## LLMClient — streaming frame reassembly (`streamChatCompletion`)

This section models the string-level processing of one decoded chunk:
`buffer += chunk.toString()` hands the line loop a JS string, i.e. a
character sequence.  (The transport actually delivers *byte* `Buffer`s
and `chunk.toString()` decodes each chunk independently; that byte
layer, where a multi-byte UTF-8 character split across chunks is
mangled, is modelled further below by `utf8DecodeReplace` /
`processByteChunk` on top of this section's `processChunk`.)  The
generator state is the carry-over `buffer`, the "generator returned"
flag (`return` on a `[DONE]` frame), and the list of yielded content
tokens.  The `JSON.parse`-based extraction
`parsed.choices[0]?.delta?.content` is abstracted as the parameter
`parse`: `parse data = some c` models a successful parse whose delta
content is the string `c` (`if (content)` then requires `c ≠ ""`, JS
truthiness), `none` models malformed JSON or absent content.
-/

structure StreamState where
  buffer : List Char
  done : Bool
  out : List String
  deriving DecidableEq

/-- Merge a character onto the first segment (helper for `splitOnNl`). -/
def consHead (c : Char) : List (List Char) → List (List Char)
  | [] => [[c]]
  | l :: ls => (c :: l) :: ls

/-- JS `String.prototype.split('\n')`: always returns at least one
segment, and segments carry no newline. -/
def splitOnNl : List Char → List (List Char)
  | [] => [[]]
  | c :: cs => if c = '\n' then [] :: splitOnNl cs else consHead c (splitOnNl cs)

/-- JS whitespace for `String.prototype.trim` (the characters relevant
to SSE frames). -/
def isJsWs (c : Char) : Bool :=
  c = ' ' || c = '\t' || c = '\n' || c = '\r'

/-- `String.prototype.trim()`. -/
def jsTrim (l : List Char) : List Char :=
  ((l.dropWhile isJsWs).reverse.dropWhile isJsWs).reverse

/-- Handling of one complete line inside the `for (const line of lines)`
loop; the pair is `(generator returned, tokens yielded so far)`. -/
def processLine (parse : List Char → Option String)
    (p : Bool × List String) (line : List Char) : Bool × List String :=
  if p.1 then p
  else if line.take 6 = "data: ".data then
    let data := jsTrim (line.drop 6)
    if data = "[DONE]".data then (true, p.2)
    else
      match parse data with
      | some content => if content ≠ "" then (p.1, p.2 ++ [content]) else p
      | none => p
  else p

/-- One iteration of `for await (const chunk of stream)`: append the
chunk to the carry-over buffer, split on `'\n'`, keep the last
(incomplete) segment as the new buffer (`buffer = lines.pop() || ''`)
and run the line loop over the complete lines.  A finished generator
ignores further chunks. -/
def processChunk (parse : List Char → Option String) (st : StreamState)
    (chunk : List Char) : StreamState :=
  if st.done then st
  else
    let lines := splitOnNl (st.buffer ++ chunk)
    let res := lines.dropLast.foldl (processLine parse) (false, st.out)
    { buffer := lines.getLastD [], done := res.1, out := res.2 }

def initStream : StreamState := ⟨[], false, []⟩

/-- The tokens yielded by `streamChatCompletion` over a whole sequence
of transport chunks. -/
def streamOut (parse : List Char → Option String)
    (chunks : List (List Char)) : List String :=
  (chunks.foldl (processChunk parse) initStream).out

/-- Merge the last segment of the first split with the first segment of
the second (helper describing `splitOnNl` on appends). -/
def consApp (x0 : List Char) : List (List Char) → List (List Char)
  | [] => [x0]
  | y0 :: ys => (x0 ++ y0) :: ys

def joinSeg : List (List Char) → List (List Char) → List (List Char)
  | [], ys => ys
  | x0 :: xs, ys =>
    match xs with
    | [] => consApp x0 ys
    | x1 :: xs' => x0 :: joinSeg (x1 :: xs') ys

theorem splitOnNl_ne_nil (l : List Char) : splitOnNl l ≠ [] := by
  cases l with
  | nil => simp [splitOnNl]
  | cons c cs =>
    simp only [splitOnNl]
    split
    · simp
    · cases h : splitOnNl cs <;> simp [consHead]

theorem consHead_joinSeg (c : Char) (S ys : List (List Char)) :
    consHead c (joinSeg S ys) = joinSeg (consHead c S) ys := by
  cases S with
  | nil => cases ys <;> rfl
  | cons s0 S' =>
    cases S' with
    | nil => cases ys <;> rfl
    | cons s1 S'' => rfl

theorem splitOnNl_append (x y : List Char) :
    splitOnNl (x ++ y) = joinSeg (splitOnNl x) (splitOnNl y) := by
  induction x with
  | nil =>
    obtain ⟨y0, ys, h⟩ := List.exists_cons_of_ne_nil (splitOnNl_ne_nil y)
    simp [splitOnNl, joinSeg, consApp, h]
  | cons c cs ih =>
    simp only [List.cons_append, splitOnNl, List.append_eq]
    split
    · rw [ih]
      obtain ⟨s0, S', hS⟩ := List.exists_cons_of_ne_nil (splitOnNl_ne_nil cs)
      rw [hS]
      rfl
    · rw [ih, consHead_joinSeg]

theorem joinSeg_eq_dropLast_consApp (S T : List (List Char)) (hS : S ≠ []) :
    joinSeg S T = S.dropLast ++ consApp (S.getLastD []) T := by
  induction S with
  | nil => exact absurd rfl hS
  | cons s0 S' ih =>
    cases S' with
    | nil => simp [joinSeg]
    | cons s1 S'' =>
      simp only [joinSeg]
      rw [ih (by simp)]
      simp [List.getLastD_cons]

theorem mem_splitOnNl_no_nl (l : List Char) :
    ∀ s ∈ splitOnNl l, '\n' ∉ s := by
  induction l with
  | nil =>
    intro s hs
    simp [splitOnNl] at hs
    simp [hs]
  | cons c cs ih =>
    intro s hs
    simp only [splitOnNl] at hs
    by_cases hc : c = '\n'
    · rw [if_pos hc] at hs
      rcases List.mem_cons.mp hs with rfl | hs'
      · simp
      · exact ih s hs'
    · rw [if_neg hc] at hs
      rcases hsc : splitOnNl cs with - | ⟨l0, ls⟩
      · exact absurd hsc (splitOnNl_ne_nil cs)
      · rw [hsc] at hs
        simp only [consHead] at hs
        rcases List.mem_cons.mp hs with rfl | hs'
        · intro hmem
          rcases List.mem_cons.mp hmem with h | h
          · exact hc h.symm
          · exact ih l0 (by rw [hsc]; exact List.mem_cons_self l0 ls) h
        · exact ih s (by rw [hsc]; exact List.mem_cons_of_mem l0 hs')

theorem splitOnNl_no_nl (l : List Char) (h : '\n' ∉ l) :
    splitOnNl l = [l] := by
  induction l with
  | nil => rfl
  | cons c cs ih =>
    have hc : ¬ c = '\n' := fun hc => h (hc ▸ List.mem_cons_self c cs)
    have hcs : '\n' ∉ cs := fun hm => h (List.mem_cons_of_mem c hm)
    simp only [splitOnNl, if_neg hc, ih hcs, consHead]

theorem getLastD_mem (l : List (List Char)) (h : l ≠ []) :
    l.getLastD [] ∈ l := by
  induction l with
  | nil => exact absurd rfl h
  | cons a l' ih =>
    cases l' with
    | nil => simp [List.getLastD_cons]
    | cons b l'' =>
      rw [List.getLastD_cons]
      have : (b :: l'').getLastD a = (b :: l'').getLastD [] := rfl
      rw [this]
      exact List.mem_cons_of_mem a (ih (by simp))

theorem getLastD_append_cons {α : Type} (A : List α) (x : α) (ts : List α) :
    ∀ d, (A ++ x :: ts).getLastD d = (x :: ts).getLastD d := by
  induction A with
  | nil => intro d; rfl
  | cons a A' ih =>
    intro d
    rw [List.cons_append, List.getLastD_cons, ih a, List.getLastD_cons,
      List.getLastD_cons]

/-- Observational equivalence of generator states: same yielded tokens
and same finished-flag; the carry-over buffer only matters while the
generator is still running. -/
def outRel (s t : StreamState) : Prop :=
  s.out = t.out ∧ s.done = t.done ∧ (s.done = false → s.buffer = t.buffer)

theorem outRel_refl (s : StreamState) : outRel s s :=
  ⟨rfl, rfl, fun _ => rfl⟩

theorem outRel_trans {s t u : StreamState} (h1 : outRel s t)
    (h2 : outRel t u) : outRel s u :=
  ⟨h1.1.trans h2.1, h1.2.1.trans h2.2.1,
    fun hd => (h1.2.2 hd).trans (h2.2.2 (h1.2.1 ▸ hd))⟩

theorem processLine_done (parse : List Char → Option String)
    (out : List String) (l : List Char) :
    processLine parse (true, out) l = (true, out) := rfl

theorem foldl_processLine_done (parse : List Char → Option String)
    (ls : List (List Char)) (out : List String) :
    ls.foldl (processLine parse) (true, out) = (true, out) := by
  induction ls with
  | nil => rfl
  | cons l ls' ih => rw [List.foldl_cons, processLine_done, ih]

theorem processChunk_done (parse : List Char → Option String)
    (st : StreamState) (chunk : List Char) (h : st.done = true) :
    processChunk parse st chunk = st := by
  simp [processChunk, h]

theorem processChunk_buffer_no_nl (parse : List Char → Option String)
    (st : StreamState) (chunk : List Char) (h : '\n' ∉ st.buffer) :
    '\n' ∉ (processChunk parse st chunk).buffer := by
  by_cases hd : st.done
  · simpa [processChunk, hd] using h
  · simp only [processChunk, if_neg hd]
    exact mem_splitOnNl_no_nl _ _ (getLastD_mem _ (splitOnNl_ne_nil _))

/-- Splitting a transport chunk in two yields an observationally equal
generator state: the carry-over buffer mechanism commutes with chunk
concatenation. -/
theorem processChunk_append (parse : List Char → Option String)
    (st : StreamState) (a b : List Char) :
    outRel (processChunk parse (processChunk parse st a) b)
      (processChunk parse st (a ++ b)) := by
  by_cases hd : st.done
  · rw [processChunk_done parse st a hd, processChunk_done parse st b hd,
      processChunk_done parse st (a ++ b) hd]
    exact outRel_refl st
  · have hA : processChunk parse st a =
        ⟨(splitOnNl (st.buffer ++ a)).getLastD [],
         ((splitOnNl (st.buffer ++ a)).dropLast.foldl (processLine parse)
           (false, st.out)).1,
         ((splitOnNl (st.buffer ++ a)).dropLast.foldl (processLine parse)
           (false, st.out)).2⟩ := by
      simp [processChunk, hd]
    set S := splitOnNl (st.buffer ++ a) with hS
    set resA := S.dropLast.foldl (processLine parse) (false, st.out) with hresA
    obtain ⟨t0, ts, hT⟩ :=
      List.exists_cons_of_ne_nil (splitOnNl_ne_nil b)
    have hlastnl : '\n' ∉ S.getLastD [] :=
      mem_splitOnNl_no_nl _ _ (getLastD_mem _ (splitOnNl_ne_nil _))
    have hAB : splitOnNl (st.buffer ++ (a ++ b)) =
        S.dropLast ++ ((S.getLastD [] ++ t0) :: ts) := by
      rw [← List.append_assoc, splitOnNl_append, ← hS,
        joinSeg_eq_dropLast_consApp S (splitOnNl b) (splitOnNl_ne_nil _),
        hT]
      rfl
    have hcarry : splitOnNl (S.getLastD [] ++ b) =
        (S.getLastD [] ++ t0) :: ts := by
      rw [splitOnNl_append, splitOnNl_no_nl _ hlastnl, hT]
      rfl
    have hRHS : processChunk parse st (a ++ b) =
        ⟨((S.getLastD [] ++ t0) :: ts).getLastD [],
         (((S.getLastD [] ++ t0) :: ts).dropLast.foldl (processLine parse)
           resA).1,
         (((S.getLastD [] ++ t0) :: ts).dropLast.foldl (processLine parse)
           resA).2⟩ := by
      simp only [processChunk, if_neg hd]
      rw [hAB, List.dropLast_append_cons, List.foldl_append, ← hresA,
        getLastD_append_cons]
    by_cases hd1 : resA.1 = true
    · have hst1done : (processChunk parse st a).done = true := by
        rw [hA]; exact hd1
      rw [processChunk_done parse _ b hst1done, hA, hRHS]
      have hR : ((S.getLastD [] ++ t0) :: ts).dropLast.foldl
          (processLine parse) resA = resA := by
        conv_lhs => rw [show resA = (true, resA.2) from by rw [← hd1]]
        rw [foldl_processLine_done]
        rw [← hd1]
      refine ⟨?_, ?_, ?_⟩
      · rw [hR]
      · rw [hR]
      · intro h
        rw [hd1] at h
        cases h
    · have hfalse : resA.1 = false := by
        cases h : resA.1
        · rfl
        · exact absurd h hd1
      have heq : processChunk parse (processChunk parse st a) b =
          processChunk parse st (a ++ b) := by
        rw [hA, hRHS]
        simp only [processChunk]
        rw [if_neg hd1, hcarry]
        rw [show (false, (⟨(S.getLastD []), resA.1, resA.2⟩ :
          StreamState).out) = resA from by rw [← hfalse]]
      exact heq ▸ outRel_refl _

theorem foldl_processChunk_buffer_no_nl (parse : List Char → Option String)
    (chunks : List (List Char)) :
    ∀ st : StreamState, '\n' ∉ st.buffer →
      '\n' ∉ (chunks.foldl (processChunk parse) st).buffer := by
  induction chunks with
  | nil => intro st h; exact h
  | cons c cs ih =>
    intro st h
    exact ih _ (processChunk_buffer_no_nl parse st c h)

/-- Processing a list of chunks one by one is observationally the same
as processing their concatenation as a single chunk. -/
theorem foldl_processChunk_flatten (parse : List Char → Option String)
    (chunks : List (List Char)) :
    ∀ st : StreamState, '\n' ∉ st.buffer →
      outRel (chunks.foldl (processChunk parse) st)
        (processChunk parse st chunks.flatten) := by
  induction chunks with
  | nil =>
    intro st h
    by_cases hd : st.done = true
    · rw [List.foldl_nil, List.flatten_nil, processChunk_done parse st [] hd]
      exact outRel_refl st
    · rw [List.foldl_nil, List.flatten_nil]
      simp only [processChunk, if_neg hd, List.append_nil,
        splitOnNl_no_nl st.buffer h]
      refine ⟨rfl, ?_, fun _ => rfl⟩
      cases hb : st.done
      · rfl
      · exact absurd hb hd
  | cons c cs ih =>
    intro st h
    rw [List.foldl_cons, List.flatten_cons]
    exact outRel_trans
      (ih (processChunk parse st c) (processChunk_buffer_no_nl parse st c h))
      (processChunk_append parse st c cs.flatten)

/-- String-level chunking invariance: the token sequence depends only
on the concatenated decoded text, not on how it is cut into string
chunks — even cuts in the middle of a line — for every
content-extraction function `parse`.  (The byte-level statement, with
the per-chunk UTF-8 decode in front, is
`streamOutBytes_char_boundary_invariant` below.) -/
theorem streamOut_chunking_invariant (parse : List Char → Option String)
    (c1 c2 : List (List Char)) (h : c1.flatten = c2.flatten) :
    streamOut parse c1 = streamOut parse c2 := by
  have h1 := foldl_processChunk_flatten parse c1 initStream (by simp [initStream])
  have h2 := foldl_processChunk_flatten parse c2 initStream (by simp [initStream])
  unfold streamOut
  rw [h1.1, h2.1, h]

/-- Witness for `streamOut_chunking_invariant`: an SSE frame split
mid-line versus delivered whole. -/
theorem streamOut_chunking_invariant_witness :
    streamOut (fun d => some (String.mk d))
        ["data: hel".data, "lo\n".data] =
      streamOut (fun d => some (String.mk d)) ["data: hello\n".data] :=
  streamOut_chunking_invariant (fun d => some (String.mk d))
    ["data: hel".data, "lo\n".data] ["data: hello\n".data] (by decide)

/-- C10: a trailing transport chunk that contains no newline never
contributes a token: the carry-over buffer holding the unterminated
final line is discarded when the stream ends, since only
newline-terminated lines are ever parsed. -/
theorem streamOut_drops_unterminated_tail (parse : List Char → Option String)
    (chunks : List (List Char)) (suffix : List Char) (h : '\n' ∉ suffix) :
    streamOut parse (chunks ++ [suffix]) = streamOut parse chunks := by
  unfold streamOut
  rw [List.foldl_append, List.foldl_cons, List.foldl_nil]
  set stf := chunks.foldl (processChunk parse) initStream with hstf
  by_cases hd : stf.done = true
  · rw [processChunk_done parse stf suffix hd]
  · have hb : '\n' ∉ stf.buffer :=
      foldl_processChunk_buffer_no_nl parse chunks initStream
        (by simp [initStream])
    have hnb : '\n' ∉ stf.buffer ++ suffix := by
      intro hmem
      rcases List.mem_append.mp hmem with hm | hm
      · exact hb hm
      · exact h hm
    simp only [processChunk, if_neg hd, splitOnNl_no_nl _ hnb]
    rfl

/-- Witness for `streamOut_drops_unterminated_tail`: a complete frame
followed by an unterminated `data:` line — the final line is dropped
even though `parse` would accept it. -/
theorem streamOut_drops_unterminated_tail_witness :
    streamOut (fun d => some (String.mk d))
        (["data: a\n".data] ++ ["data: b".data]) =
      streamOut (fun d => some (String.mk d)) ["data: a\n".data] :=
  streamOut_drops_unterminated_tail (fun d => some (String.mk d))
    ["data: a\n".data] "data: b".data (by decide)

/-!
## LLMClient — batching (`batchChatCompletion`)

The loop `for (let i = 0; i < requests.length; i += concurrency)` is
modelled by fuel-bounded recursion over the remaining request list
(`slice(i, i + concurrency)` becomes `take`/`drop`); the loop never
terminates for `concurrency = 0`, so the theorems assume
`0 < concurrency`.  The network call is abstracted as the pure oracle
`f`.  The asynchronous structure is recorded as an event trace: within a
window, `batch.map(req => this.chatCompletion(...))` synchronously
creates (starts) every promise before `await Promise.all` resolves any,
and the loop body does not continue to the next window until the whole
window has resolved — so the trace of a window is all of its `start`
events followed by all of its `awaited` events, and windows appear
strictly in order.
-/

inductive BatchEvent (Req : Type) where
  | start (r : Req)
  | awaited (r : Req)
  deriving DecidableEq

/-- The loop body of `batchChatCompletion`: results in input order plus
the start/await event trace. -/
def batchLoopGo {Req Resp : Type} (f : Req → Resp) (c : Nat) :
    Nat → List Req → List Resp × List (BatchEvent Req)
  | 0, _ => ([], [])
  | _ + 1, [] => ([], [])
  | fuel + 1, r :: rs =>
    let batch := (r :: rs).take c
    let rest := batchLoopGo f c fuel ((r :: rs).drop c)
    (batch.map f ++ rest.1,
     (batch.map BatchEvent.start ++ batch.map BatchEvent.awaited) ++ rest.2)

/-- `batchChatCompletion(requests, concurrency)`: the responses, in
input order. -/
def batchChatCompletion {Req Resp : Type} (f : Req → Resp)
    (reqs : List Req) (c : Nat) : List Resp :=
  (batchLoopGo f c reqs.length reqs).1

/-- The start/await event trace of `batchChatCompletion`. -/
def batchTrace {Req Resp : Type} (f : Req → Resp) (reqs : List Req)
    (c : Nat) : List (BatchEvent Req) :=
  (batchLoopGo f c reqs.length reqs).2

/-- Specification helper: the consecutive windows of size `c`. -/
def chunkGo {Req : Type} (c : Nat) : Nat → List Req → List (List Req)
  | 0, _ => []
  | _ + 1, [] => []
  | fuel + 1, r :: rs => (r :: rs).take c :: chunkGo c fuel ((r :: rs).drop c)

def chunkList {Req : Type} (c : Nat) (xs : List Req) : List (List Req) :=
  chunkGo c xs.length xs

theorem batchLoopGo_spec {Req Resp : Type} (f : Req → Resp) (c : Nat)
    (hc : 0 < c) :
    ∀ (fuel : Nat) (reqs : List Req), reqs.length ≤ fuel →
      (batchLoopGo f c fuel reqs).1 = reqs.map f ∧
      (batchLoopGo f c fuel reqs).2 =
        ((chunkGo c fuel reqs).map
          (fun w => w.map BatchEvent.start ++
            w.map (BatchEvent.awaited : Req → BatchEvent Req))).flatten ∧
      (chunkGo c fuel reqs).flatten = reqs := by
  intro fuel
  induction fuel with
  | zero =>
    intro reqs h
    rw [List.length_eq_zero.mp (Nat.le_zero.mp h)]
    simp [batchLoopGo, chunkGo]
  | succ n ih =>
    intro reqs h
    cases reqs with
    | nil => simp [batchLoopGo, chunkGo]
    | cons r rs =>
      have hlen : ((r :: rs).drop c).length ≤ n := by
        rw [List.length_drop, List.length_cons]
        simp only [List.length_cons] at h
        omega
      obtain ⟨h1, h2, h3⟩ := ih _ hlen
      refine ⟨?_, ?_, ?_⟩
      · simp only [batchLoopGo]
        rw [h1, ← List.map_append, List.take_append_drop]
      · simp only [batchLoopGo, chunkGo]
        rw [h2, List.map_cons, List.flatten_cons]
      · simp only [chunkGo, List.flatten_cons]
        rw [h3, List.take_append_drop]

theorem chunkGo_mem {Req : Type} (c : Nat) (hc : 0 < c) :
    ∀ (fuel : Nat) (reqs : List Req) (w : List Req),
      w ∈ chunkGo c fuel reqs → w.length ≤ c ∧ w ≠ [] := by
  intro fuel
  induction fuel with
  | zero => intro reqs w hw; simp [chunkGo] at hw
  | succ n ih =>
    intro reqs w hw
    cases reqs with
    | nil => simp [chunkGo] at hw
    | cons r rs =>
      simp only [chunkGo] at hw
      rcases List.mem_cons.mp hw with rfl | hw'
      · constructor
        · rw [List.length_take]
          omega
        · obtain ⟨m, rfl⟩ := Nat.exists_eq_succ_of_ne_zero (Nat.pos_iff_ne_zero.mp hc)
          simp [List.take_succ_cons]
      · exact ih _ w hw'

/-- C9: with `0 < concurrency`, `batchChatCompletion` returns the
responses in input order (`reqs.map f`, regardless of network completion
order, which the pure oracle abstracts away); the requests are processed
in the consecutive windows `chunkList c reqs` (which partition the input
and have at most `c` elements each); and the event trace is, window by
window in order, all of the window's starts followed by all of its
awaits — window `N+1` starts only after window `N` has fully resolved. -/
theorem batchChatCompletion_spec {Req Resp : Type} (f : Req → Resp)
    (reqs : List Req) (c : Nat) (hc : 0 < c) :
    batchChatCompletion f reqs c = reqs.map f ∧
    (chunkList c reqs).flatten = reqs ∧
    (∀ w ∈ chunkList c reqs, w.length ≤ c ∧ w ≠ []) ∧
    batchTrace f reqs c =
      ((chunkList c reqs).map
        (fun w => w.map BatchEvent.start ++
          w.map (BatchEvent.awaited : Req → BatchEvent Req))).flatten := by
  obtain ⟨h1, h2, h3⟩ :=
    batchLoopGo_spec f c hc reqs.length reqs (Nat.le_refl _)
  exact ⟨h1, h3, fun w hw => chunkGo_mem c hc reqs.length reqs w hw, h2⟩

/-- Witness for `batchChatCompletion_spec`: five requests at
concurrency 2 come back in input order. -/
theorem batchChatCompletion_spec_witness :
    batchChatCompletion (fun n => n + 1) [1, 2, 3, 4, 5] 2 =
      [1, 2, 3, 4, 5].map (fun n => n + 1) :=
  (batchChatCompletion_spec (fun n => n + 1) [1, 2, 3, 4, 5] 2
    (by decide)).1

/-!
## LLMClient — requests, the response-cache key, and error handling

JS numbers (`temperature`, `max_tokens`) are modelled as rationals; the
exact `Number#toString` formatting used by `JSON.stringify` is
immaterial to every claim (the key theorems hold for *every* rendering
function `numRepr`), so it is passed as a parameter.
-/

structure ChatMessage where
  role : String
  content : String
  deriving DecidableEq

structure ChatCompletionRequest where
  model : String
  messages : List ChatMessage
  temperature : ℚ
  max_tokens : ℚ
  stream : Bool
  deriving DecidableEq

structure ResponseChoice where
  index : Nat
  message : ChatMessage
  finish_reason : String
  deriving DecidableEq

structure Usage where
  prompt_tokens : Nat
  completion_tokens : Nat
  total_tokens : Nat
  deriving DecidableEq

structure ChatCompletionResponse where
  id : String
  object : String
  created : Nat
  model : String
  choices : List ResponseChoice
  usage : Usage
  deriving DecidableEq

def hexDigit (n : Nat) : Char :=
  if n < 10 then Char.ofNat (48 + n) else Char.ofNat (87 + n)

/-- `JSON.stringify` escaping for one character of a string value. -/
def jsonEscapeChar (c : Char) : List Char :=
  if c = '"' then ['\\', '"']
  else if c = '\\' then ['\\', '\\']
  else if c = Char.ofNat 8 then ['\\', 'b']
  else if c = '\t' then ['\\', 't']
  else if c = '\n' then ['\\', 'n']
  else if c = Char.ofNat 12 then ['\\', 'f']
  else if c = Char.ofNat 13 then ['\\', 'r']
  else if c.toNat < 32 then
    ['\\', 'u', '0', '0', hexDigit (c.toNat / 16), hexDigit (c.toNat % 16)]
  else [c]

def jsonString (s : String) : String :=
  "\"" ++ String.mk (s.data.flatMap jsonEscapeChar) ++ "\""

def jsonMessage (m : ChatMessage) : String :=
  "\x7b\"role\":" ++ jsonString m.role ++ ",\"content\":" ++
    jsonString m.content ++ "\x7d"

def jsonMessages (ms : List ChatMessage) : String :=
  "[" ++ String.intercalate "," (ms.map jsonMessage) ++ "]"

/-- `JSON.stringify({model, messages, temperature, max_tokens})` — the
canonical string fingerprinted by `generateCacheKey`; note it does not
mention `stream`. -/
def canonicalKeyJson (numRepr : ℚ → String) (r : ChatCompletionRequest) :
    String :=
  "\x7b\"model\":" ++ jsonString r.model ++
    ",\"messages\":" ++ jsonMessages r.messages ++
    ",\"temperature\":" ++ numRepr r.temperature ++
    ",\"max_tokens\":" ++ numRepr r.max_tokens ++ "\x7d"

/-- UTF-8 encoding of one character (`Buffer.from(key)` uses UTF-8). -/
def utf8EncodeChar (c : Char) : List Nat :=
  let n := c.toNat
  if n < 128 then [n]
  else if n < 2048 then [192 + n / 64, 128 + n % 64]
  else if n < 65536 then
    [224 + n / 4096, 128 + (n / 64) % 64, 128 + n % 64]
  else
    [240 + n / 262144, 128 + (n / 4096) % 64, 128 + (n / 64) % 64,
     128 + n % 64]

def utf8Encode (s : String) : List Nat :=
  s.data.flatMap utf8EncodeChar

def base64Alphabet : String :=
  "ABCDEFGHIJKLMNOPQRSTUVWXYZabcdefghijklmnopqrstuvwxyz0123456789+/"

def b64Char (n : Nat) : Char :=
  base64Alphabet.data.getD n 'A'

/-- Standard base64 of a byte list (`Buffer#toString('base64')`). -/
def base64Encode : List Nat → List Char
  | b0 :: b1 :: b2 :: rest =>
    b64Char (b0 / 4) :: b64Char (b0 % 4 * 16 + b1 / 16) ::
      b64Char (b1 % 16 * 4 + b2 / 64) :: b64Char (b2 % 64) ::
      base64Encode rest
  | [b0, b1] =>
    [b64Char (b0 / 4), b64Char (b0 % 4 * 16 + b1 / 16),
     b64Char (b1 % 16 * 4), '=']
  | [b0] => [b64Char (b0 / 4), b64Char (b0 % 4 * 16), '=', '=']
  | [] => []

/-- `generateCacheKey`: base64 of the canonical JSON, truncated by
`.slice(0, 32)` — i.e. the first 32 base64 characters, which encode
exactly the first 24 bytes of the serialization. -/
def generateCacheKey (numRepr : ℚ → String) (r : ChatCompletionRequest) :
    String :=
  String.mk ((base64Encode (utf8Encode (canonicalKeyJson numRepr r))).take 32)

/-- The first `4n` base64 characters depend only on the first `3n`
bytes. -/
theorem base64Encode_take_prefix :
    ∀ (n : Nat) (bs1 bs2 : List Nat),
      bs1.take (3 * n) = bs2.take (3 * n) →
      (base64Encode bs1).take (4 * n) = (base64Encode bs2).take (4 * n) := by
  intro n
  induction n with
  | zero => intro bs1 bs2 h; simp
  | succ m ih =>
    intro bs1 bs2 h
    have e3 : 3 * (m + 1) = 3 * m + 1 + 1 + 1 := by ring
    have e4 : 4 * (m + 1) = 4 * m + 1 + 1 + 1 + 1 := by ring
    rw [e3] at h
    rw [e4]
    rcases bs1 with _ | ⟨b0, t1⟩
    · rw [List.take_nil] at h
      have hb2 : bs2 = [] := by
        rcases bs2 with _ | ⟨c0, t2⟩
        · rfl
        · rw [List.take_succ_cons] at h; cases h
      subst hb2; rfl
    · rcases bs2 with _ | ⟨c0, t2⟩
      · rw [List.take_nil, List.take_succ_cons] at h; cases h
      · rw [List.take_succ_cons, List.take_succ_cons] at h
        injection h with h0 h
        subst h0
        rcases t1 with _ | ⟨b1, u1⟩
        · rw [List.take_nil] at h
          have hu : t2 = [] := by
            rcases t2 with _ | ⟨c1, u2⟩
            · rfl
            · rw [List.take_succ_cons] at h; cases h
          subst hu; rfl
        · rcases t2 with _ | ⟨c1, u2⟩
          · rw [List.take_nil, List.take_succ_cons] at h; cases h
          · rw [List.take_succ_cons, List.take_succ_cons] at h
            injection h with h1 h
            subst h1
            rcases u1 with _ | ⟨b2, v1⟩
            · rw [List.take_nil] at h
              have hv : u2 = [] := by
                rcases u2 with _ | ⟨c2, v2⟩
                · rfl
                · rw [List.take_succ_cons] at h; cases h
              subst hv; rfl
            · rcases u2 with _ | ⟨c2, v2⟩
              · rw [List.take_nil, List.take_succ_cons] at h; cases h
              · rw [List.take_succ_cons, List.take_succ_cons] at h
                injection h with h2 h
                subst h2
                simp only [base64Encode, List.take_succ_cons]
                rw [ih v1 v2 h]

/-- C1 (amended): the cache key is a deterministic function of
`(model, messages, temperature, max_tokens)` — in particular it ignores
`stream` — but it is *not* collision-resistant: it is `slice(0, 32)` of
the base64 serialization, so any two requests whose canonical JSON
agrees on the first 24 bytes receive the same key, even when their
fields differ. -/
theorem generateCacheKey_characterization (numRepr : ℚ → String)
    (r1 r2 : ChatCompletionRequest) :
    ((r1.model = r2.model ∧ r1.messages = r2.messages ∧
      r1.temperature = r2.temperature ∧ r1.max_tokens = r2.max_tokens) →
      generateCacheKey numRepr r1 = generateCacheKey numRepr r2) ∧
    ((utf8Encode (canonicalKeyJson numRepr r1)).take 24 =
        (utf8Encode (canonicalKeyJson numRepr r2)).take 24 →
      generateCacheKey numRepr r1 = generateCacheKey numRepr r2) := by
  constructor
  · rintro ⟨h1, h2, h3, h4⟩
    unfold generateCacheKey canonicalKeyJson
    rw [h1, h2, h3, h4]
  · intro h
    unfold generateCacheKey
    have hp := base64Encode_take_prefix 8
      (utf8Encode (canonicalKeyJson numRepr r1))
      (utf8Encode (canonicalKeyJson numRepr r2))
      (by norm_num; exact h)
    norm_num at hp
    rw [hp]

/-- Witness for `generateCacheKey_characterization`: two requests equal
in the four fingerprinted fields (differing in `stream`) get equal keys. -/
theorem generateCacheKey_characterization_witness :
    generateCacheKey (fun q => toString q.num)
        ⟨"m", [⟨"user", "hi"⟩], 1, 5, false⟩ =
      generateCacheKey (fun q => toString q.num)
        ⟨"m", [⟨"user", "hi"⟩], 1, 5, true⟩ :=
  (generateCacheKey_characterization (fun q => toString q.num)
    ⟨"m", [⟨"user", "hi"⟩], 1, 5, false⟩
    ⟨"m", [⟨"user", "hi"⟩], 1, 5, true⟩).1 ⟨rfl, rfl, rfl, rfl⟩

/-- C1 counterexample: two requests with the same 19-character model
name but *different messages* receive the *same* cache key (both keys
are the base64 of the first 24 bytes, which lie inside
`{"model":"deepseek-coder…`) — "differs whenever any one field differs"
fails, deterministically, not merely with negligible probability. -/
theorem generateCacheKey_collision :
    generateCacheKey (fun q => toString q.num)
        ⟨"deepseek-coder:6.7b", [⟨"user", "hello"⟩], 7 / 10, 4000, false⟩ =
      generateCacheKey (fun q => toString q.num)
        ⟨"deepseek-coder:6.7b", [⟨"user", "different"⟩], 7 / 10, 4000,
          false⟩ ∧
    ([⟨"user", "hello"⟩] : List ChatMessage) ≠ [⟨"user", "different"⟩] := by
  constructor
  · rfl
  · decide

/-!
### Error handling (`validateStatus`, `enhanceError`)
-/

/-- A single-quote character (written by code point). -/
def sq : String := String.singleton (Char.ofNat 39)

/-- `validateStatus: (status) => status < 500` — axios resolves the
request promise whenever this returns true, so *every* 4xx response,
404 included, resolves successfully and never reaches the error
interceptor. -/
def validateStatus (status : Nat) : Bool :=
  decide (status < 500)

/-- The message produced by `enhanceError` for an axios error carrying
the given HTTP status (`none` = network failure without a response);
`message` is `error.response?.data?.error?.message || error.message`. -/
def enhanceErrorMessage (model : String) (status : Option Nat)
    (message : String) : String :=
  match status with
  | some 404 =>
    "Model " ++ sq ++ model ++ sq ++
      " not found. Please check if the model is installed."
  | some 503 => "LLM service is temporarily unavailable. Please try again later."
  | some 413 => "Request too large. Try reducing the message length or max_tokens."
  | some 429 => "Rate limit exceeded. Please wait a moment before trying again."
  | some s => "LLM API error (" ++ toString s ++ "): " ++ message
  | none => "LLM API error (unknown): " ++ message

/-- The reply the model server sends to `POST /chat/completions`:
HTTP status, parsed body, and the server-side error message (if the
body carries one). -/
structure HttpReply (Body : Type) where
  status : Nat
  body : Body
  errorMessage : String

/-- The outcome of one `client.post` as `chatCompletion` observes it:
axios resolves iff `validateStatus` accepts the status; a rejected
promise passes through the response interceptor, which replaces the
error with `enhanceError`; `chatCompletion` rethrows it unchanged. -/
def chatCompletionOutcome {Body : Type} (model : String)
    (reply : HttpReply Body) : Except String Body :=
  if validateStatus reply.status then Except.ok reply.body
  else Except.error (enhanceErrorMessage model (some reply.status)
    reply.errorMessage)

/-- C2 (code bug): `enhanceError` *does* map HTTP 404 to a message that
names the configured model and says "not found" — but
`validateStatus` accepts every status below 500, so a 404 reply
*resolves*: `chatCompletion` returns the 404 body as if it were a
successful `ChatCompletionResponse` and no error is ever thrown.  The
404 branch of `enhanceError` is unreachable from an HTTP response. -/
theorem http404_resolves_despite_not_found_mapping :
    validateStatus 404 = true ∧
    chatCompletionOutcome "foo:7b"
        ({ status := 404, body := "error body",
           errorMessage := "model not found" } : HttpReply String) =
      Except.ok "error body" ∧
    List.IsInfix "foo:7b".data
      (enhanceErrorMessage "foo:7b" (some 404) "msg").data ∧
    List.IsInfix "not found".data
      (enhanceErrorMessage "foo:7b" (some 404) "msg").data := by
  refine ⟨rfl, rfl, ?_, ?_⟩ <;> decide

/-!
### The non-streaming response cache (`chatCompletion`)

`Date.now()` is the explicit `now` argument (one reading per call); the
request duration measured by the stats interceptor is the explicit
`duration`.  The network is the pure oracle `net`; `response.data` is a
parsed object and hence always truthy.
-/

/-- `cacheTTL = 5 * 60 * 1000` (5 minutes). -/
def cacheTTL : Nat := 5 * 60 * 1000

structure LLMStats where
  requestCount : Nat
  totalTokens : Nat
  avgResponseTime : ℚ
  errorCount : Nat
  cacheHits : Nat
  deriving DecidableEq

structure LLMClientState where
  stats : LLMStats
  responseCache : List (String × ChatCompletionResponse × Nat)
  deriving DecidableEq

def freshLLMState : LLMClientState := ⟨⟨0, 0, 0, 0, 0⟩, []⟩

/-- `getCachedResponse(key)` at time `now`: a hit only while
`Date.now() - cached.timestamp <= cacheTTL`; an expired entry is
deleted. -/
def getCachedResponse
    (cache : List (String × ChatCompletionResponse × Nat)) (key : String)
    (now : Nat) :
    Option ChatCompletionResponse ×
      List (String × ChatCompletionResponse × Nat) :=
  match lookupEntry cache key with
  | none => (none, cache)
  | some (resp, ts) =>
    if now - ts > cacheTTL then (none, eraseEntry cache key)
    else (some resp, cache)

/-- Stable insertion by timestamp for the response cache's pruning
sort (`sort(([,a],[,b]) => a.timestamp - b.timestamp)`). -/
def insertRespTs (p : String × ChatCompletionResponse × Nat) :
    List (String × ChatCompletionResponse × Nat) →
      List (String × ChatCompletionResponse × Nat)
  | [] => [p]
  | q :: rest =>
    if q.2.2 < p.2.2 then q :: insertRespTs p rest else p :: q :: rest

def sortRespByTimestamp
    (l : List (String × ChatCompletionResponse × Nat)) :
    List (String × ChatCompletionResponse × Nat) :=
  l.foldr insertRespTs []

/-- `cacheResponse(key, response)`: when the cache holds more than 100
entries, delete the 20 oldest, then insert the new entry stamped `now`. -/
def cacheResponse (cache : List (String × ChatCompletionResponse × Nat))
    (key : String) (resp : ChatCompletionResponse) (now : Nat) :
    List (String × ChatCompletionResponse × Nat) :=
  let pruned :=
    if 100 < cache.length then
      ((sortRespByTimestamp cache).take 20).foldl
        (fun c p => eraseEntry c p.1) cache
    else cache
  mapSet pruned key (resp, now)

/-- `updateStats(duration, tokens)`: running totals plus an exponential
moving average with `alpha = 0.1`. -/
def updateStats (stats : LLMStats) (duration : ℚ) (tokens : Nat) :
    LLMStats :=
  { stats with
    totalTokens := stats.totalTokens + tokens,
    avgResponseTime :=
      if stats.avgResponseTime = 0 then duration
      else 1 / 10 * duration + (1 - 1 / 10) * stats.avgResponseTime }

/-- The options object of `chatCompletion` (absent fields are `none`). -/
structure ChatOptions where
  temperature : Option ℚ
  maxTokens : Option ℚ
  stream : Option Bool
  useCache : Option Bool
  deriving DecidableEq

/-- The request object built at the top of `chatCompletion`, with the
defaults `temperature ?? 0.7`, `max_tokens ?? 4000`, `stream ?? false`. -/
def mkRequest (model : String) (messages : List ChatMessage)
    (opts : ChatOptions) : ChatCompletionRequest :=
  ⟨model, messages, opts.temperature.getD (7 / 10),
    opts.maxTokens.getD 4000, opts.stream.getD false⟩

/-- `chatCompletion(messages, options)` on the success path: for a
non-streaming request with caching not disabled
(`options.useCache !== false`), consult the response cache and on a hit
bump `cacheHits` and return without touching the network; otherwise
bump `requestCount`, ask the network, let the stats interceptor record
`(duration, usage.total_tokens)`, and cache the response. -/
def chatCompletionM (numRepr : ℚ → String) (model : String)
    (net : ChatCompletionRequest → ChatCompletionResponse)
    (st : LLMClientState) (messages : List ChatMessage)
    (opts : ChatOptions) (now : Nat) (duration : ℚ) :
    ChatCompletionResponse × LLMClientState :=
  let request := mkRequest model messages opts
  let useC : Bool := !request.stream && !(opts.useCache == some false)
  let key := generateCacheKey numRepr request
  match (if useC then getCachedResponse st.responseCache key now
         else (none, st.responseCache)) with
  | (some resp, cache1) =>
    (resp, { stats := { st.stats with cacheHits := st.stats.cacheHits + 1 },
             responseCache := cache1 })
  | (none, cache1) =>
    let stats1 := { st.stats with requestCount := st.stats.requestCount + 1 }
    let resp := net request
    let stats2 := updateStats stats1 duration resp.usage.total_tokens
    let cache2 := if useC then cacheResponse cache1 key resp now else cache1
    (resp, { stats := stats2, responseCache := cache2 })

@[simp] theorem updateStats_requestCount (s : LLMStats) (d : ℚ) (t : Nat) :
    (updateStats s d t).requestCount = s.requestCount := rfl

@[simp] theorem updateStats_cacheHits (s : LLMStats) (d : ℚ) (t : Nat) :
    (updateStats s d t).cacheHits = s.cacheHits := rfl

/-- The first call on a fresh client misses and populates the cache. -/
theorem chatCompletionM_first_call (numRepr : ℚ → String) (model : String)
    (net : ChatCompletionRequest → ChatCompletionResponse)
    (messages : List ChatMessage) (opts : ChatOptions) (now1 : Nat)
    (dur1 : ℚ)
    (hstream : opts.stream.getD false = false)
    (huc : (opts.useCache == some false) = false) :
    chatCompletionM numRepr model net freshLLMState messages opts now1
        dur1 =
      (net (mkRequest model messages opts),
       ⟨updateStats ⟨1, 0, 0, 0, 0⟩ dur1
          (net (mkRequest model messages opts)).usage.total_tokens,
        [(generateCacheKey numRepr (mkRequest model messages opts),
          net (mkRequest model messages opts), now1)]⟩) := by
  unfold chatCompletionM
  simp [mkRequest, hstream, huc, freshLLMState, getCachedResponse,
    cacheResponse, mapSet]

/-- C5: issuing the identical non-streaming request twice within the
response-cache TTL performs no second network request (`requestCount`
stays at 1), returns the first call's response, and leaves
`stats.cacheHits = 1`. -/
theorem chatCompletion_repeat_hits_cache (numRepr : ℚ → String)
    (model : String)
    (net : ChatCompletionRequest → ChatCompletionResponse)
    (messages : List ChatMessage) (opts : ChatOptions)
    (now1 now2 : Nat) (dur1 dur2 : ℚ)
    (hstream : opts.stream.getD false = false)
    (huse : opts.useCache ≠ some false)
    (httl : now2 - now1 ≤ cacheTTL) :
    (chatCompletionM numRepr model net
        (chatCompletionM numRepr model net freshLLMState messages opts
          now1 dur1).2 messages opts now2 dur2).1 =
      (chatCompletionM numRepr model net freshLLMState messages opts now1
        dur1).1 ∧
    (chatCompletionM numRepr model net
        (chatCompletionM numRepr model net freshLLMState messages opts
          now1 dur1).2 messages opts now2 dur2).2.stats.requestCount = 1 ∧
    (chatCompletionM numRepr model net freshLLMState messages opts now1
        dur1).2.stats.requestCount = 1 ∧
    (chatCompletionM numRepr model net
        (chatCompletionM numRepr model net freshLLMState messages opts
          now1 dur1).2 messages opts now2 dur2).2.stats.cacheHits = 1 := by
  have huc : (opts.useCache == some false) = false := by
    cases h : opts.useCache == some false
    · rfl
    · exact absurd (eq_of_beq h) huse
  have h1 := chatCompletionM_first_call numRepr model net messages opts
    now1 dur1 hstream huc
  have hnot : ¬ (now2 - now1 > cacheTTL) := Nat.not_lt.mpr httl
  rw [h1]
  unfold chatCompletionM
  simp [mkRequest, hstream, huc, getCachedResponse, lookupEntry,
    List.find?_cons, hnot]

/-- Witness for `chatCompletion_repeat_hits_cache` at a concrete model,
message list and clock. -/
theorem chatCompletion_repeat_hits_cache_witness :
    (chatCompletionM (fun q => toString q.num) "m"
        (fun _ => ⟨"id", "chat.completion", 0, "m", [], ⟨1, 2, 3⟩⟩)
        (chatCompletionM (fun q => toString q.num) "m"
          (fun _ => ⟨"id", "chat.completion", 0, "m", [], ⟨1, 2, 3⟩⟩)
          freshLLMState [⟨"user", "hi"⟩] ⟨none, none, none, none⟩
          0 0).2 [⟨"user", "hi"⟩] ⟨none, none, none, none⟩ 1 0).1 =
      (chatCompletionM (fun q => toString q.num) "m"
        (fun _ => ⟨"id", "chat.completion", 0, "m", [], ⟨1, 2, 3⟩⟩)
        freshLLMState [⟨"user", "hi"⟩] ⟨none, none, none, none⟩ 0 0).1 ∧
    (chatCompletionM (fun q => toString q.num) "m"
        (fun _ => ⟨"id", "chat.completion", 0, "m", [], ⟨1, 2, 3⟩⟩)
        (chatCompletionM (fun q => toString q.num) "m"
          (fun _ => ⟨"id", "chat.completion", 0, "m", [], ⟨1, 2, 3⟩⟩)
          freshLLMState [⟨"user", "hi"⟩] ⟨none, none, none, none⟩
          0 0).2 [⟨"user", "hi"⟩] ⟨none, none, none, none⟩
        1 0).2.stats.requestCount = 1 ∧
    (chatCompletionM (fun q => toString q.num) "m"
        (fun _ => ⟨"id", "chat.completion", 0, "m", [], ⟨1, 2, 3⟩⟩)
        freshLLMState [⟨"user", "hi"⟩] ⟨none, none, none, none⟩
        0 0).2.stats.requestCount = 1 ∧
    (chatCompletionM (fun q => toString q.num) "m"
        (fun _ => ⟨"id", "chat.completion", 0, "m", [], ⟨1, 2, 3⟩⟩)
        (chatCompletionM (fun q => toString q.num) "m"
          (fun _ => ⟨"id", "chat.completion", 0, "m", [], ⟨1, 2, 3⟩⟩)
          freshLLMState [⟨"user", "hi"⟩] ⟨none, none, none, none⟩
          0 0).2 [⟨"user", "hi"⟩] ⟨none, none, none, none⟩
        1 0).2.stats.cacheHits = 1 :=
  chatCompletion_repeat_hits_cache (fun q => toString q.num) "m"
    (fun _ => ⟨"id", "chat.completion", 0, "m", [], ⟨1, 2, 3⟩⟩)
    [⟨"user", "hi"⟩] ⟨none, none, none, none⟩ 0 1 0 0
    (by decide) (by decide) (by decide)

/-!
## Byte-level transport chunks and per-chunk UTF-8 decoding

The transport hands `streamChatCompletion` `Buffer`s of *bytes*, and
`chunk.toString()` decodes each chunk to a string *independently*, with
no decoder state carried across chunks: a multi-byte UTF-8 character
split across a chunk boundary is mangled into U+FFFD replacement
characters.  `utf8DecodeReplace` models this per-chunk
`Buffer#toString('utf8')`; `processByteChunk` is one iteration of the
`for await` loop at byte granularity — decode, then the string-level
buffering of `processChunk`.  (Byte sequences that encode surrogate
code points cannot arise from encoding and are irrelevant to the
claims.)
-/

def utf8EncodeChars (l : List Char) : List Nat :=
  l.flatMap utf8EncodeChar

/-- U+FFFD REPLACEMENT CHARACTER. -/
def replacementChar : Char := Char.ofNat 0xFFFD

/-- Is `b` a UTF-8 continuation byte (`10xxxxxx`)? -/
def isCont (b : Nat) : Bool :=
  decide (128 ≤ b) && decide (b < 192)

/-- Node `Buffer#toString('utf8')` on one chunk: well-formed sequences
decode to their scalar value; a stray continuation byte, an invalid
lead, or a lead whose continuation bytes are malformed yields U+FFFD
(and decoding resumes at the offending byte); a sequence truncated by
the end of the chunk yields a single U+FFFD. -/
def utf8DecodeReplace : List Nat → List Char
  | [] => []
  | b :: rest =>
    if b < 128 then Char.ofNat b :: utf8DecodeReplace rest
    else if b < 192 then replacementChar :: utf8DecodeReplace rest
    else if b < 224 then
      match rest with
      | [] => [replacementChar]
      | b1 :: rest2 =>
        if isCont b1 then
          Char.ofNat ((b - 192) * 64 + (b1 - 128)) :: utf8DecodeReplace rest2
        else replacementChar :: utf8DecodeReplace (b1 :: rest2)
    else if b < 240 then
      match rest with
      | [] => [replacementChar]
      | b1 :: rest2 =>
        if isCont b1 then
          match rest2 with
          | [] => [replacementChar]
          | b2 :: rest3 =>
            if isCont b2 then
              Char.ofNat ((b - 224) * 4096 + (b1 - 128) * 64 + (b2 - 128)) ::
                utf8DecodeReplace rest3
            else replacementChar :: utf8DecodeReplace (b2 :: rest3)
        else replacementChar :: utf8DecodeReplace (b1 :: rest2)
    else if b < 248 then
      match rest with
      | [] => [replacementChar]
      | b1 :: rest2 =>
        if isCont b1 then
          match rest2 with
          | [] => [replacementChar]
          | b2 :: rest3 =>
            if isCont b2 then
              match rest3 with
              | [] => [replacementChar]
              | b3 :: rest4 =>
                if isCont b3 then
                  Char.ofNat ((b - 240) * 262144 + (b1 - 128) * 4096 +
                    (b2 - 128) * 64 + (b3 - 128)) :: utf8DecodeReplace rest4
                else replacementChar :: utf8DecodeReplace (b3 :: rest4)
            else replacementChar :: utf8DecodeReplace (b2 :: rest3)
        else replacementChar :: utf8DecodeReplace (b1 :: rest2)
    else replacementChar :: utf8DecodeReplace rest
termination_by l => l.length
decreasing_by all_goals first | (simp; omega) | simp

/-- One `for await (const chunk of stream)` iteration at byte
granularity: `buffer += chunk.toString()` then the line loop. -/
def processByteChunk (parse : List Char → Option String)
    (st : StreamState) (chunk : List Nat) : StreamState :=
  processChunk parse st (utf8DecodeReplace chunk)

/-- The tokens yielded by `streamChatCompletion` over a sequence of
byte-level transport chunks. -/
def streamOutBytes (parse : List Char → Option String)
    (chunks : List (List Nat)) : List String :=
  (chunks.foldl (processByteChunk parse) initStream).out

theorem char_toNat_lt (c : Char) : c.toNat < 1114112 := by
  have h := c.valid
  have he : c.toNat = c.val.toNat := rfl
  rcases h with h | ⟨h1, h2⟩ <;> omega

/-- Decoding resumes cleanly after a correctly encoded character. -/
theorem utf8DecodeReplace_encodeChar (c : Char) (tail : List Nat) :
    utf8DecodeReplace (utf8EncodeChar c ++ tail) =
      c :: utf8DecodeReplace tail := by
  have hlt := char_toNat_lt c
  by_cases h1 : c.toNat < 128
  · simp only [utf8EncodeChar, if_pos h1, List.cons_append, List.nil_append]
    rw [utf8DecodeReplace.eq_def]
    dsimp only
    rw [if_pos h1, Char.ofNat_toNat]
  · by_cases h2 : c.toNat < 2048
    · have hb1 : ¬ (192 + c.toNat / 64 < 128) := by omega
      have hb2 : ¬ (192 + c.toNat / 64 < 192) := by omega
      have hb3 : 192 + c.toNat / 64 < 224 := by omega
      have hcA : isCont (128 + c.toNat % 64) = true := by
        simp only [isCont, Bool.and_eq_true, decide_eq_true_eq]
        omega
      simp only [utf8EncodeChar, if_neg h1, if_pos h2, List.cons_append,
        List.nil_append]
      rw [utf8DecodeReplace.eq_def]
      dsimp only
      rw [if_neg hb1, if_neg hb2, if_pos hb3, if_pos hcA]
      have harg : (192 + c.toNat / 64 - 192) * 64 +
          (128 + c.toNat % 64 - 128) = c.toNat := by omega
      rw [harg, Char.ofNat_toNat]
    · by_cases h3 : c.toNat < 65536
      · have hb1 : ¬ (224 + c.toNat / 4096 < 128) := by omega
        have hb2 : ¬ (224 + c.toNat / 4096 < 192) := by omega
        have hb3 : ¬ (224 + c.toNat / 4096 < 224) := by omega
        have hb4 : 224 + c.toNat / 4096 < 240 := by omega
        have hcA : isCont (128 + c.toNat / 64 % 64) = true := by
          simp only [isCont, Bool.and_eq_true, decide_eq_true_eq]
          omega
        have hcB : isCont (128 + c.toNat % 64) = true := by
          simp only [isCont, Bool.and_eq_true, decide_eq_true_eq]
          omega
        simp only [utf8EncodeChar, if_neg h1, if_neg h2, if_pos h3,
          List.cons_append, List.nil_append]
        rw [utf8DecodeReplace.eq_def]
        dsimp only
        rw [if_neg hb1, if_neg hb2, if_neg hb3, if_pos hb4, if_pos hcA,
          if_pos hcB]
        have harg : (224 + c.toNat / 4096 - 224) * 4096 +
            (128 + c.toNat / 64 % 64 - 128) * 64 +
            (128 + c.toNat % 64 - 128) = c.toNat := by omega
        rw [harg, Char.ofNat_toNat]
      · have hb1 : ¬ (240 + c.toNat / 262144 < 128) := by omega
        have hb2 : ¬ (240 + c.toNat / 262144 < 192) := by omega
        have hb3 : ¬ (240 + c.toNat / 262144 < 224) := by omega
        have hb4 : ¬ (240 + c.toNat / 262144 < 240) := by omega
        have hb5 : 240 + c.toNat / 262144 < 248 := by omega
        have hcA : isCont (128 + c.toNat / 4096 % 64) = true := by
          simp only [isCont, Bool.and_eq_true, decide_eq_true_eq]
          omega
        have hcB : isCont (128 + c.toNat / 64 % 64) = true := by
          simp only [isCont, Bool.and_eq_true, decide_eq_true_eq]
          omega
        have hcC : isCont (128 + c.toNat % 64) = true := by
          simp only [isCont, Bool.and_eq_true, decide_eq_true_eq]
          omega
        simp only [utf8EncodeChar, if_neg h1, if_neg h2, if_neg h3,
          List.cons_append, List.nil_append]
        rw [utf8DecodeReplace.eq_def]
        dsimp only
        rw [if_neg hb1, if_neg hb2, if_neg hb3, if_neg hb4, if_pos hb5,
          if_pos hcA, if_pos hcB, if_pos hcC]
        have e2 : c.toNat / 4096 * 64 + c.toNat / 64 % 64 = c.toNat / 64 := by
          have h := Nat.div_add_mod (c.toNat / 64) 64
          rw [Nat.div_div_eq_div_mul, show (64 : Nat) * 64 = 4096 from rfl]
            at h
          omega
        have e3 : c.toNat / 262144 * 64 + c.toNat / 4096 % 64 =
            c.toNat / 4096 := by
          have h := Nat.div_add_mod (c.toNat / 4096) 64
          rw [Nat.div_div_eq_div_mul,
            show (4096 : Nat) * 64 = 262144 from rfl] at h
          omega
        have harg : (240 + c.toNat / 262144 - 240) * 262144 +
            (128 + c.toNat / 4096 % 64 - 128) * 4096 +
            (128 + c.toNat / 64 % 64 - 128) * 64 +
            (128 + c.toNat % 64 - 128) = c.toNat := by omega
        rw [harg, Char.ofNat_toNat]

/-- Per-chunk decoding is lossless exactly on whole characters: the
decode of an encoded character sequence is that sequence. -/
theorem utf8DecodeReplace_encodeChars (l : List Char) :
    utf8DecodeReplace (utf8EncodeChars l) = l := by
  induction l with
  | nil =>
    have h0 : utf8EncodeChars [] = [] := by simp [utf8EncodeChars]
    rw [h0, utf8DecodeReplace.eq_def]
  | cons c rest ih =>
    have h : utf8EncodeChars (c :: rest) =
        utf8EncodeChar c ++ utf8EncodeChars rest := by
      simp [utf8EncodeChars]
    rw [h, utf8DecodeReplace_encodeChar, ih]

theorem flatten_map_utf8EncodeChars (cs : List (List Char)) :
    (cs.map utf8EncodeChars).flatten = utf8EncodeChars cs.flatten := by
  induction cs with
  | nil => rfl
  | cons c rest ih =>
    simp only [List.map_cons, List.flatten_cons, List.flatten, ih,
      utf8EncodeChars, List.flatMap_append]

/-- Byte chunks that are encodings of character sequences decode back to
those sequences, so the byte pipeline agrees with the string pipeline. -/
theorem streamOutBytes_map_encode (parse : List Char → Option String)
    (cs : List (List Char)) :
    streamOutBytes parse (cs.map utf8EncodeChars) = streamOut parse cs := by
  unfold streamOutBytes streamOut
  rw [List.foldl_map]
  simp only [processByteChunk, utf8DecodeReplace_encodeChars]

/-- C6 (amended): the token sequence yielded by `streamChatCompletion`
is the same for every way of splitting the response body's bytes into
transport chunks *that does not divide a multi-byte UTF-8 character*
(each chunk is the encoding of a character sequence; splits in the
middle of a line are fine), for every content-extraction function.
Splitting inside a multi-byte character is excluded: there the
per-chunk `chunk.toString()` mangles the character into U+FFFD and the
yielded tokens can change. -/
theorem streamOutBytes_char_boundary_invariant
    (parse : List Char → Option String) (cs1 cs2 : List (List Char))
    (h : (cs1.map utf8EncodeChars).flatten =
      (cs2.map utf8EncodeChars).flatten) :
    streamOutBytes parse (cs1.map utf8EncodeChars) =
      streamOutBytes parse (cs2.map utf8EncodeChars) := by
  have hch : cs1.flatten = cs2.flatten := by
    have hb : utf8EncodeChars cs1.flatten = utf8EncodeChars cs2.flatten := by
      rw [← flatten_map_utf8EncodeChars, ← flatten_map_utf8EncodeChars, h]
    have hd := congrArg utf8DecodeReplace hb
    rwa [utf8DecodeReplace_encodeChars, utf8DecodeReplace_encodeChars] at hd
  rw [streamOutBytes_map_encode, streamOutBytes_map_encode]
  exact streamOut_chunking_invariant parse cs1 cs2 hch

/-- Witness for `streamOutBytes_char_boundary_invariant`: an SSE frame
holding the two-byte character `é`, delivered whole versus split
mid-line (but between characters). -/
theorem streamOutBytes_char_boundary_invariant_witness :
    streamOutBytes (fun d => some (String.mk d))
        ([['d', 'a', 't', 'a', ':', ' ', 'é', '\n']].map utf8EncodeChars) =
      streamOutBytes (fun d => some (String.mk d))
        ([['d', 'a', 't', 'a', ':', ' '], ['é', '\n']].map utf8EncodeChars) :=
  streamOutBytes_char_boundary_invariant (fun d => some (String.mk d))
    [['d', 'a', 't', 'a', ':', ' ', 'é', '\n']]
    [['d', 'a', 't', 'a', ':', ' '], ['é', '\n']] (by decide)

/-- C6 counterexample: the same nine response-body bytes
`data: é\n` (`é` = `0xC3 0xA9`), split once *inside* the two-byte
character, yield a different token than when delivered whole: the
per-chunk `Buffer#toString` turns the split `é` into two U+FFFD
replacement characters.  Chunking invariance over *all* byte splits, as
the claim states it, is false. -/
theorem streamOutBytes_mid_char_split_changes_tokens :
    ([[100, 97, 116, 97, 58, 32, 195, 169, 10]] :
        List (List Nat)).flatten =
      ([[100, 97, 116, 97, 58, 32, 195], [169, 10]] :
        List (List Nat)).flatten ∧
    streamOutBytes (fun d => some (String.mk d))
        [[100, 97, 116, 97, 58, 32, 195, 169, 10]] ≠
      streamOutBytes (fun d => some (String.mk d))
        [[100, 97, 116, 97, 58, 32, 195], [169, 10]] := by
  have hd1 : utf8DecodeReplace [100, 97, 116, 97, 58, 32, 195, 169, 10] =
      ['d', 'a', 't', 'a', ':', ' ', Char.ofNat 233, Char.ofNat 10] := by
    simp [utf8DecodeReplace.eq_def, isCont]
  have hd2 : utf8DecodeReplace [100, 97, 116, 97, 58, 32, 195] =
      ['d', 'a', 't', 'a', ':', ' ', replacementChar] := by
    simp [utf8DecodeReplace.eq_def, isCont]
  have hd3 : utf8DecodeReplace [169, 10] =
      [replacementChar, Char.ofNat 10] := by
    simp [utf8DecodeReplace.eq_def, isCont]
  refine ⟨rfl, ?_⟩
  simp only [streamOutBytes, List.foldl_cons, List.foldl_nil,
    processByteChunk, hd1, hd2, hd3]
  decide

end SimpletonCLI
